import Mathlib

/-!
Verification development for the propagation subsystem of a finite-domain
constraint-satisfaction engine (propagators for plain backtracking, forward
checking and generalized arc consistency) together with the grid mutation
performed by the FunPuzz model builder.

The propagators (`prop_BT`, `fc_check`, `prop_FC`, `gac_enforce`, `prop_GAC`)
are translated from `src/propagators.py`; the model-builder grid mutation
(`caged_csp_model_grid`) is translated from `src/puzzle_csp.py`.

The data model (`Variable`, `Constraint`, `CSP` of the unprovided `cspbase`
module) is modelled from the specification:

* a Variable has a fixed domain, a mutable current domain, and an optional
  assigned value; assigning does not shrink the stored current domain, but
  the observed current domain of an assigned variable is the singleton of
  its assigned value (the spec's arithmetic-cage scenario — value 1 must be
  pruned from the partner cell because the assigned cell's current domain is
  "already singleton via assignment" — forces this reading, which also
  matches `cur_domain()` returning only the assigned value);
* pruning removes a value from the stored current domain;
* a constraint is an ordered scope of variables plus an explicit list of
  satisfying tuples; `check` is tuple membership, `has_support` asks for a
  satisfying tuple agreeing with the candidate value and whose remaining
  components lie in the current domains.

Variables are identified by natural-number indices into the state list;
constraints carry a name so that distinct constraint objects with equal
scope and tuples stay distinguishable (Python compares them by identity).
-/

/-- Modelled from the spec: mutable per-variable state — the fixed domain,
the stored (prunable) current domain, and the optional assigned value. -/
structure VarState where
  dom : List Nat
  curdom : List Nat
  assigned : Option Nat
deriving DecidableEq, Repr

/-- The mutable problem state: one `VarState` per variable index. -/
abbrev VState := List VarState

/-- Modelled from the spec: a constraint has a name (identity), an ordered
scope of variable indices, and an explicit list of satisfying tuples. -/
structure Constraint where
  cname : Nat
  scope : List Nat
  tuples : List (List Nat)
deriving DecidableEq, Repr

/-- Modelled from the spec: a problem is a container of constraints (the
variables live in the state); order of `cons` is insertion order. -/
structure CSP where
  cons : List Constraint
deriving DecidableEq, Repr

/-- Variable record at index `x` (out-of-range reads yield the inert
variable with empty domains, never consulted by well-formed problems). -/
def getVar (s : VState) (x : Nat) : VarState := s.getD x ⟨[], [], none⟩

/-- Replace the record of variable `x`. -/
def setVar (s : VState) (x : Nat) (a : VarState) : VState := s.set x a

/-- Modelled from the spec: `get_assigned_value`. -/
def getAssigned (s : VState) (x : Nat) : Option Nat := (getVar s x).assigned

/-- Modelled from the spec: `cur_domain()` — the assigned value alone when
the variable is assigned, otherwise the stored current domain. -/
def curDomain (s : VState) (x : Nat) : List Nat :=
  match (getVar s x).assigned with
  | some a => [a]
  | none => (getVar s x).curdom

/-- Modelled from the spec: `cur_domain_size()`. -/
def curDomainSize (s : VState) (x : Nat) : Nat := (curDomain s x).length

/-- Modelled from the spec: `assign(value)` — a trial or search assignment;
it does not touch the stored current domain. -/
def assign (s : VState) (x : Nat) (d : Nat) : VState :=
  setVar s x { getVar s x with assigned := some d }

/-- Modelled from the spec: `unassign()`. -/
def unassign (s : VState) (x : Nat) : VState :=
  setVar s x { getVar s x with assigned := none }

/-- Modelled from the spec: `prune_value(d)` removes `d` from the stored
current domain of `x`. -/
def pruneValue (s : VState) (x : Nat) (d : Nat) : VState :=
  setVar s x { getVar s x with curdom := (getVar s x).curdom.erase d }

/-- Modelled from the spec: `check(vals)` — membership of the positional
value tuple in the satisfying tuples (a tuple with a missing component
matches nothing). -/
def Constraint.check (C : Constraint) (vals : List (Option Nat)) : Bool :=
  C.tuples.any fun t => decide (t.map some = vals)

/-- Modelled from the spec: `has_support(var, d)` — some satisfying tuple
(of matching arity, the spec's model-construction invariant) whose
component at `var`'s position equals `d` and whose components at every
other scope position lie in the corresponding current domain. -/
def hasSupport (s : VState) (C : Constraint) (x : Nat) (d : Nat) : Bool :=
  C.tuples.any fun t =>
    decide (t.length = C.scope.length) &&
    (C.scope.zip t).all fun p =>
      if p.1 = x then decide (p.2 = d) else decide (p.2 ∈ curDomain s p.1)

/-- Modelled from the spec: `get_n_unasgn()` — the number of unassigned
scope entries. -/
def nUnasgn (s : VState) (C : Constraint) : Nat :=
  (C.scope.filter fun w => (getAssigned s w).isNone).length

/-- Modelled from the spec: `get_unasgn_vars()`. -/
def unasgnVars (s : VState) (C : Constraint) : List Nat :=
  C.scope.filter fun w => (getAssigned s w).isNone

/-- Modelled from the spec: `get_cons_with_var(v)` — the constraints whose
scope contains `v`, in insertion order. -/
def consWithVar (csp : CSP) (v : Nat) : List Constraint :=
  csp.cons.filter fun c => decide (v ∈ c.scope)

/-! ## prop_BT (translated from src/propagators.py lines 64-78) -/

/-- Loop body of `prop_BT`: walk the constraints, fail on the first fully
assigned constraint whose assigned-value tuple fails `check`. -/
def btLoop (s : VState) : List Constraint → Bool
  | [] => true
  | C :: cs =>
    if nUnasgn s C = 0 ∧ C.check (C.scope.map (getAssigned s)) = false then false
    else btLoop s cs

/-- Plain backtracking propagation (`prop_BT`): no pruning, just check the
fully instantiated constraints containing the newly assigned variable. -/
def prop_BT (csp : CSP) (s : VState) (newVar : Option Nat) :
    Bool × List (Nat × Nat) :=
  match newVar with
  | none => (true, [])
  | some v => (btLoop s (consWithVar csp v), [])

/-! ## prop_FC (translated from src/propagators.py lines 81-128) -/

/-- Value loop of `fc_check`: for each `d` of the recorded current domain of
`x`, assign `d`, read the scope's assigned values, prune `d` when the tuple
fails `check`, and unassign again. -/
def fcCheckVals (C : Constraint) (x : Nat) :
    List Nat → VState → List (Nat × Nat) → VState × List (Nat × Nat)
  | [], s, pr => (s, pr)
  | d :: ds, s, pr =>
    let s1 := assign s x d
    let vals := C.scope.map (getAssigned s1)
    if C.check vals then fcCheckVals C x ds (unassign s1 x) pr
    else fcCheckVals C x ds (unassign (pruneValue s1 x d) x) (pr ++ [(x, d)])

/-- `fc_check`: forward-check constraint `C` whose only unassigned scope
variable is `x`; afterwards report a deadend when `x`'s current domain has
emptied. -/
def fc_check (C : Constraint) (x : Nat) (pr : List (Nat × Nat)) (s : VState) :
    Bool × VState × List (Nat × Nat) :=
  let r := fcCheckVals C x (curDomain s x) s pr
  if curDomainSize r.1 x = 0 then (false, r.1, r.2) else (true, r.1, r.2)

/-- Constraint loop of `prop_FC`: forward-check each constraint that has
exactly one unassigned scope variable, stopping at the first deadend. -/
def fcLoop : List Constraint → VState → List (Nat × Nat) →
    Bool × VState × List (Nat × Nat)
  | [], s, pr => (true, s, pr)
  | C :: cs, s, pr =>
    if nUnasgn s C = 1 then
      match unasgnVars s C with
      | x :: _ =>
        let r := fc_check C x pr s
        if r.1 then fcLoop cs r.2.1 r.2.2 else (false, r.2.1, r.2.2)
      | [] => fcLoop cs s pr  -- unreachable: the guard forces one unassigned variable
    else fcLoop cs s pr

/-- Forward-checking propagation (`prop_FC`). -/
def prop_FC (csp : CSP) (s : VState) (newVar : Option Nat) :
    Bool × VState × List (Nat × Nat) :=
  match newVar with
  | none => fcLoop csp.cons s []
  | some v => fcLoop (consWithVar csp v) s []

/-! ## prop_GAC (translated from src/propagators.py lines 131-177) -/

/-- Result of processing part of the GAC queue: the wipeout flag, the
variable state, the pending queue, the settled list, and the pruned pairs. -/
structure GacRes where
  wipe : Bool
  st : VState
  q : List Constraint
  ng : List Constraint
  pr : List (Nat × Nat)
deriving DecidableEq, Repr

/-- Re-enqueue step (lines 152-156): Python's `for c_prime in nGAC_queue`
with `nGAC_queue.remove(c_prime)` in the body.  The list iterator keeps a
cursor `i` that has already advanced past the fetched element, so removing
the element at position `i - 1` shifts its successor into the slot the
cursor skips.  `fuel` starts at the list's length, which the cursor/length
race makes sufficient: every step raises the cursor and never raises the
length. -/
def requeueAux (v : Nat) : Nat → Nat → List Constraint → List Constraint →
    List Constraint × List Constraint
  | 0, _, ng, q => (ng, q)
  | fuel + 1, i, ng, q =>
    if h : i < ng.length then
      let c := ng.get ⟨i, h⟩
      if v ∈ c.scope then requeueAux v fuel (i + 1) (ng.eraseIdx i) (q ++ [c])
      else requeueAux v fuel (i + 1) ng q
    else (ng, q)

/-- Move the settled constraints whose scope contains `v` back onto the
pending queue, with Python's iterate-while-removing semantics. -/
def requeue (v : Nat) (ng : List Constraint) (q : List Constraint) :
    List Constraint × List Constraint :=
  requeueAux v ng.length 0 ng q

/-- Value loop of `gac_enforce` for one scope variable `v` of `C`: prune
unsupported values; on a domain wipeout clear the queue and stop. -/
def gacVals (C : Constraint) (v : Nat) :
    List Nat → VState → List Constraint → List Constraint →
    List (Nat × Nat) → GacRes
  | [], s, q, ng, pr => ⟨false, s, q, ng, pr⟩
  | d :: ds, s, q, ng, pr =>
    if hasSupport s C v d then gacVals C v ds s q ng pr
    else
      let s' := pruneValue s v d
      let pr' := pr ++ [(v, d)]
      if curDomainSize s' v = 0 then ⟨true, s', [], ng, pr'⟩
      else
        let m := requeue v ng q
        gacVals C v ds s' m.2 m.1 pr'

/-- Scope loop of `gac_enforce`: run the value loop on each scope variable's
current domain, stopping on a wipeout. -/
def gacScope (C : Constraint) :
    List Nat → VState → List Constraint → List Constraint →
    List (Nat × Nat) → GacRes
  | [], s, q, ng, pr => ⟨false, s, q, ng, pr⟩
  | v :: vs, s, q, ng, pr =>
    let r := gacVals C v (curDomain s v) s q ng pr
    if r.wipe then r else gacScope C vs r.st r.q r.ng r.pr

/-- `gac_enforce`: pop constraints FIFO from the pending queue onto the
settled list and enforce support for every scope value; `none` when the
iteration bound `fuel` is exhausted (the Python loop can in fact diverge,
so a bound is part of the model). -/
def gac_enforce : Nat → List Constraint → List Constraint → VState →
    List (Nat × Nat) → Option (Bool × VState × List Constraint ×
      List Constraint × List (Nat × Nat))
  | _, [], ng, s, pr => some (true, s, [], ng, pr)
  | 0, _ :: _, _, _, _ => none
  | fuel + 1, C :: q, ng, s, pr =>
    let r := gacScope C C.scope s q (ng ++ [C]) pr
    if r.wipe then some (false, r.st, r.q, r.ng, r.pr)
    else gac_enforce fuel r.q r.ng r.st r.pr

/-- Initial GAC pending queue (lines 166-171). -/
def initQueue (csp : CSP) (newVar : Option Nat) : List Constraint :=
  match newVar with
  | none => csp.cons
  | some v => consWithVar csp v

/-- Initial GAC settled list: all constraints not on the pending queue. -/
def initSettled (csp : CSP) (newVar : Option Nat) : List Constraint :=
  match newVar with
  | none => []
  | some _ => csp.cons.filter fun c => decide (c ∉ initQueue csp newVar)

/-- GAC propagation (`prop_GAC`): run `gac_enforce` from the initial
queue/settled split and return its verdict with the pruned pairs. -/
def prop_GAC (fuel : Nat) (csp : CSP) (s : VState) (newVar : Option Nat) :
    Option (Bool × VState × List (Nat × Nat)) :=
  match gac_enforce fuel (initQueue csp newVar) (initSettled csp newVar) s [] with
  | none => none
  | some (b, s', _, _, pr) => some (b, s', pr)

/-! ## caged_csp_model grid mutation (translated from src/puzzle_csp.py
lines 168-181) -/

/-- In-place effect of `caged_csp_model` on its `fpuzz_grid` argument: each
cage entry after the header is left alone when its length is exactly two
and otherwise has its operator code and target value popped off the end. -/
def caged_csp_model_grid (g : List (List Nat)) : List (List Nat) :=
  match g with
  | [] => []
  | header :: cages =>
    header :: cages.map fun cage =>
      if cage.length = 2 then cage else cage.dropLast.dropLast

/-! ## Derived notions used by the verification -/

/-- Apply a single-variable update to the state (all three mutating
variable operations are instances of this). -/
def modifyVar (s : VState) (x : Nat) (f : VarState → VarState) : VState :=
  setVar s x (f (getVar s x))

/-- Replay a pruned-pair list against a state. -/
def applyPrunes (s : VState) (pr : List (Nat × Nat)) : VState :=
  pr.foldl (fun t p => pruneValue t p.1 p.2) s

/-- Written from the spec (section 4.2): the positional value tuple obtained
by tentatively giving `x` the value `d` while every other scope variable
contributes its assigned value. -/
def specTuple (s : VState) (C : Constraint) (x : Nat) (d : Nat) :
    List (Option Nat) :=
  C.scope.map fun w => if w = x then some d else getAssigned s w

/-- Written from the spec (section 4.2): the values of `x`'s current domain
whose tentative tuple fails the constraint. -/
def specFCbad (s : VState) (C : Constraint) (x : Nat) : List Nat :=
  (curDomain s x).filter fun d => !(C.check (specTuple s C x d))

/-- Written from the spec (section 4.2): process the selected constraints in
order; for each with exactly one unassigned variable `x`, prune the failing
values and declare a deadend when `x`'s current domain empties. -/
def specFCloop : List Constraint → VState → List (Nat × Nat) →
    Bool × VState × List (Nat × Nat)
  | [], s, pr => (true, s, pr)
  | C :: cs, s, pr =>
    if nUnasgn s C = 1 then
      match unasgnVars s C with
      | x :: _ =>
        let bad := specFCbad s C x
        let s' := bad.foldl (fun t d => pruneValue t x d) s
        let pr' := pr ++ bad.map fun d => (x, d)
        if curDomainSize s' x = 0 then (false, s', pr') else specFCloop cs s' pr'
      | [] => specFCloop cs s pr
    else specFCloop cs s pr

/-- Written from the spec (section 4.2): forward checking as the spec
phrases it, to be compared with the translated `prop_FC`. -/
def specFC (csp : CSP) (s : VState) (newVar : Option Nat) :
    Bool × VState × List (Nat × Nat) :=
  specFCloop (initQueue csp newVar) s []

/-- Two states agree on every assignment slot. -/
def sameAssign (σ s₀ : VState) : Prop :=
  ∀ w, getAssigned σ w = getAssigned s₀ w

/-- Forward checking would object to value `d` of `x` under constraint `C`
at state `s₀`: `x` is the sole unassigned scope variable and the tentative
tuple fails the check. -/
def FCfail (s₀ : VState) (C : Constraint) (x d : Nat) : Prop :=
  unasgnVars s₀ C = [x] ∧ C.check (specTuple s₀ C x d) = false

/-- Bookkeeping invariant of a GAC run relative to the initial state `s₀`:
assignments are untouched and every vanished current-domain value has been
recorded in the pruned list. -/
structure GBase (s₀ s : VState) (pr : List (Nat × Nat)) : Prop where
  asg : sameAssign s s₀
  seen : ∀ x d, d ∈ curDomain s₀ x → d ∉ curDomain s x → (x, d) ∈ pr

/-- Value `d` of `v` has no support under `C` in any state whose
assignments agree with `s₀` (the situation forward checking detects). -/
def noSupInv (s₀ : VState) (C : Constraint) (v d : Nat) : Prop :=
  ∀ σ, sameAssign σ s₀ → hasSupport σ C v d = false

/-! ## Concrete problem instances used as inputs below -/

/-- Variables 0 (assigned 1), 1, 2 over domain `{1, 2}`; a ternary
constraint, a binary constraint on 1-2, and a binary constraint on 0-1. -/
def csp2 : CSP := ⟨[⟨0, [0, 1, 2], [[1, 1, 1], [1, 2, 2]]⟩,
                    ⟨1, [1, 2], [[1, 1], [1, 2]]⟩,
                    ⟨2, [0, 1], [[1, 1]]⟩]⟩

def s2 : VState := [⟨[1, 2], [1, 2], some 1⟩, ⟨[1, 2], [1, 2], none⟩,
                    ⟨[1, 2], [1, 2], none⟩]

/-- The state produced by a first GAC call on `csp2`/`s2`. -/
def s2b : VState := [⟨[1, 2], [1, 2], some 1⟩, ⟨[1, 2], [1], none⟩,
                     ⟨[1, 2], [1, 2], none⟩]

/-- The state produced by a second GAC call on `csp2`/`s2b`. -/
def s2c : VState := [⟨[1, 2], [1, 2], some 1⟩, ⟨[1, 2], [1], none⟩,
                     ⟨[1, 2], [1], none⟩]

/-- Variables 0 and 1 assigned 1, variable 2 unassigned with current domain
`[1]`; two binary constraints on 0-1 and 0-2 satisfied only by `(2, 2)`. -/
def csp7 : CSP := ⟨[⟨0, [0, 1], [[2, 2]]⟩, ⟨1, [0, 2], [[2, 2]]⟩]⟩

def s7 : VState := [⟨[1, 2], [1, 2], some 1⟩, ⟨[1, 2], [1, 2], some 1⟩,
                    ⟨[1, 2], [1], none⟩]

/-- The state left behind by the GAC call on `csp7`/`s7`. -/
def s7w : VState := [⟨[1, 2], [2], some 1⟩, ⟨[1, 2], [2], some 1⟩,
                     ⟨[1, 2], [], none⟩]

/-- Two settled constraints both containing variable 0. -/
def cA : Constraint := ⟨10, [0, 1], []⟩

def cB : Constraint := ⟨11, [0, 2], []⟩

/-- One binary constraint on 0-1 whose only satisfying tuple is `(1, 2)`;
variable 0 assigned 1, variable 1 with current domain `[1]`. -/
def csp5 : CSP := ⟨[⟨0, [0, 1], [[1, 2]]⟩]⟩

def s5 : VState := [⟨[1, 2], [1, 2], some 1⟩, ⟨[1, 2], [1], none⟩]

/-- A binary not-equal constraint over `{1, 2}` with variable 0 assigned. -/
def cspW : CSP := ⟨[⟨0, [0, 1], [[1, 2], [2, 1]]⟩]⟩

def sW : VState := [⟨[1, 2], [1, 2], some 1⟩, ⟨[1, 2], [1, 2], none⟩]

/-- The state after GAC (or FC) propagation on `cspW`/`sW`. -/
def sWafter : VState := [⟨[1, 2], [1, 2], some 1⟩, ⟨[1, 2], [2], none⟩]

/-! ## Basic state lemmas -/

theorem getVar_setVar_self (s : VState) (x : Nat) (a : VarState)
    (h : x < s.length) : getVar (setVar s x a) x = a := by
  induction s generalizing x with
  | nil => simp at h
  | cons b t ih =>
    cases x with
    | zero => simp [getVar, setVar]
    | succ n => simpa [getVar, setVar] using ih n (by simpa using h)

theorem getVar_setVar_ne (s : VState) (x y : Nat) (a : VarState)
    (h : x ≠ y) : getVar (setVar s x a) y = getVar s y := by
  induction s generalizing x y with
  | nil => simp [getVar, setVar]
  | cons b t ih =>
    cases x with
    | zero =>
      cases y with
      | zero => exact absurd rfl h
      | succ m => simp [getVar, setVar]
    | succ n =>
      cases y with
      | zero => simp [getVar, setVar]
      | succ m => simpa [getVar, setVar] using ih n m (by omega)

theorem setVar_oob (s : VState) (x : Nat) (a : VarState)
    (h : s.length ≤ x) : setVar s x a = s := by
  induction s generalizing x with
  | nil => rfl
  | cons b t ih =>
    cases x with
    | zero => simp at h
    | succ n => simpa [setVar] using ih n (by simpa using h)

theorem setVar_setVar (s : VState) (x : Nat) (a b : VarState) :
    setVar (setVar s x a) x b = setVar s x b := by
  induction s generalizing x with
  | nil => rfl
  | cons c t ih =>
    cases x with
    | zero => simp [setVar]
    | succ n => simpa [setVar] using ih n

theorem setVar_getVar_self (s : VState) (x : Nat) :
    setVar s x (getVar s x) = s := by
  induction s generalizing x with
  | nil => rfl
  | cons b t ih =>
    cases x with
    | zero => simp [getVar, setVar]
    | succ n => simpa [getVar, setVar] using ih n

theorem length_setVar (s : VState) (x : Nat) (a : VarState) :
    (setVar s x a).length = s.length := by
  simp [setVar]

theorem modifyVar_modifyVar (s : VState) (x : Nat) (f g : VarState → VarState) :
    modifyVar (modifyVar s x f) x g = modifyVar s x (fun r => g (f r)) := by
  by_cases h : x < s.length
  · unfold modifyVar
    rw [getVar_setVar_self s x _ h, setVar_setVar]
  · have e1 : ∀ a, setVar s x a = s := fun a => setVar_oob s x a (Nat.le_of_not_lt h)
    simp [modifyVar, e1]

theorem modifyVar_eq_self (s : VState) (x : Nat) (f : VarState → VarState)
    (h : f (getVar s x) = getVar s x) : modifyVar s x f = s := by
  unfold modifyVar
  rw [h, setVar_getVar_self]

theorem getVar_modifyVar_self (s : VState) (x : Nat) (f : VarState → VarState)
    (h : x < s.length) : getVar (modifyVar s x f) x = f (getVar s x) :=
  getVar_setVar_self s x _ h

theorem getVar_modifyVar_ne (s : VState) (x y : Nat) (f : VarState → VarState)
    (h : x ≠ y) : getVar (modifyVar s x f) y = getVar s y :=
  getVar_setVar_ne s x y _ h

theorem getVar_oob (s : VState) (x : Nat) (h : s.length ≤ x) :
    getVar s x = ⟨[], [], none⟩ := by
  induction s generalizing x with
  | nil => cases x <;> rfl
  | cons b t ih =>
    cases x with
    | zero => simp at h
    | succ n => simpa [getVar] using ih n (by simpa using h)

theorem assign_eq_modify (s : VState) (x d : Nat) :
    assign s x d = modifyVar s x (fun r => { r with assigned := some d }) := rfl

theorem unassign_eq_modify (s : VState) (x : Nat) :
    unassign s x = modifyVar s x (fun r => { r with assigned := none }) := rfl

theorem pruneValue_eq_modify (s : VState) (x d : Nat) :
    pruneValue s x d =
      modifyVar s x (fun r => { r with curdom := r.curdom.erase d }) := rfl

theorem getAssigned_pruneValue (s : VState) (v e w : Nat) :
    getAssigned (pruneValue s v e) w = getAssigned s w := by
  by_cases hlt : v < s.length
  · by_cases hw : v = w
    · subst hw
      simp [getAssigned, pruneValue_eq_modify, getVar_modifyVar_self _ _ _ hlt]
    · simp [getAssigned, pruneValue_eq_modify, getVar_modifyVar_ne _ _ _ _ hw]
  · simp [getAssigned, pruneValue, setVar_oob s v _ (Nat.le_of_not_lt hlt)]

theorem curDomain_pruneValue_ne (s : VState) (v e w : Nat) (h : v ≠ w) :
    curDomain (pruneValue s v e) w = curDomain s w := by
  simp [curDomain, pruneValue_eq_modify, getVar_modifyVar_ne _ _ _ _ h]

theorem curDomain_pruneValue_self (s : VState) (v e : Nat) :
    curDomain (pruneValue s v e) v =
      match (getVar s v).assigned with
      | some a => [a]
      | none => (getVar s v).curdom.erase e := by
  by_cases hlt : v < s.length
  · simp only [curDomain, pruneValue_eq_modify, getVar_modifyVar_self _ _ _ hlt]
  · simp [curDomain, pruneValue, setVar_oob s v _ (Nat.le_of_not_lt hlt),
      getVar_oob s v (Nat.le_of_not_lt hlt)]

theorem curDomain_pruneValue_subset (s : VState) (v e w e' : Nat)
    (h : e' ∈ curDomain (pruneValue s v e) w) : e' ∈ curDomain s w := by
  by_cases hw : v = w
  · subst hw
    rw [curDomain_pruneValue_self] at h
    unfold curDomain
    cases hA : (getVar s v).assigned with
    | some a => simpa [hA] using (by simpa [hA] using h)
    | none => exact List.erase_subset _ _ (by simpa [hA] using h)
  · rwa [curDomain_pruneValue_ne _ _ _ _ hw] at h

theorem curDomain_pruneValue_missing (s : VState) (v e w e' : Nat)
    (h : e' ∈ curDomain s w) (h2 : e' ∉ curDomain (pruneValue s v e) w) :
    w = v ∧ e' = e := by
  by_cases hw : v = w
  · subst hw
    refine ⟨rfl, ?_⟩
    rw [curDomain_pruneValue_self] at h2
    unfold curDomain at h
    cases hA : (getVar s v).assigned with
    | some a => exact absurd (by simpa [hA] using h) (by simpa [hA] using h2)
    | none =>
      by_contra hne
      exact h2 (by
        simp only [hA]
        exact (List.mem_erase_of_ne hne).mpr (by simpa [hA] using h))
  · exact absurd h (by rwa [curDomain_pruneValue_ne _ _ _ _ hw] at h2)

theorem getAssigned_assign_self (s : VState) (x d : Nat) (h : x < s.length) :
    getAssigned (assign s x d) x = some d := by
  simp [getAssigned, assign_eq_modify, getVar_modifyVar_self _ _ _ h]

theorem getAssigned_assign_ne (s : VState) (x d w : Nat) (h : x ≠ w) :
    getAssigned (assign s x d) w = getAssigned s w := by
  simp [getAssigned, assign_eq_modify, getVar_modifyVar_ne _ _ _ _ h]

theorem getAssigned_unassign_self (s : VState) (x : Nat) :
    getAssigned (unassign s x) x = none := by
  by_cases h : x < s.length
  · simp [getAssigned, unassign_eq_modify, getVar_modifyVar_self _ _ _ h]
  · simp [getAssigned, unassign, setVar_oob s x _ (Nat.le_of_not_lt h),
      getVar_oob s x (Nat.le_of_not_lt h)]

theorem unassign_assign (s : VState) (x d : Nat)
    (h : getAssigned s x = none) : unassign (assign s x d) x = s := by
  rw [assign_eq_modify, unassign_eq_modify, modifyVar_modifyVar]
  refine modifyVar_eq_self _ _ _ ?_
  have : (getVar s x).assigned = none := h
  cases hg : getVar s x with
  | mk dm cd asg => simp only [hg] at this; simp [this]

theorem modifyVar_congr (s : VState) (x : Nat) (f g : VarState → VarState)
    (h : f (getVar s x) = g (getVar s x)) : modifyVar s x f = modifyVar s x g := by
  unfold modifyVar
  rw [h]

theorem unassign_pruneValue_assign (s : VState) (x d e : Nat)
    (h : getAssigned s x = none) :
    unassign (pruneValue (assign s x d) x e) x = pruneValue s x e := by
  rw [assign_eq_modify, unassign_eq_modify, pruneValue_eq_modify,
    pruneValue_eq_modify, modifyVar_modifyVar, modifyVar_modifyVar]
  refine modifyVar_congr _ _ _ _ ?_
  have hx : (getVar s x).assigned = none := h
  cases hg : getVar s x with
  | mk dm cd asg =>
    simp only [hg] at hx
    subst hx
    rfl

theorem length_pruneValue (s : VState) (x d : Nat) :
    (pruneValue s x d).length = s.length := length_setVar _ _ _

theorem curDomain_of_assigned (s : VState) (x a : Nat)
    (h : getAssigned s x = some a) : curDomain s x = [a] := by
  unfold curDomain
  rw [show (getVar s x).assigned = some a from h]

theorem curDomain_oob (s : VState) (x : Nat) (h : s.length ≤ x) :
    curDomain s x = [] := by
  unfold curDomain
  rw [getVar_oob _ _ h]

theorem getAssigned_applyPrunes (s : VState) (pr : List (Nat × Nat)) (w : Nat) :
    getAssigned (applyPrunes s pr) w = getAssigned s w := by
  induction pr generalizing s with
  | nil => rfl
  | cons p t ih =>
    simpa [applyPrunes] using (ih (pruneValue s p.1 p.2)).trans
      (getAssigned_pruneValue _ _ _ _)

theorem applyPrunes_append (s : VState) (p1 p2 : List (Nat × Nat)) :
    applyPrunes s (p1 ++ p2) = applyPrunes (applyPrunes s p1) p2 := by
  simp [applyPrunes, List.foldl_append]

/-! ## Forward checking refinement -/

theorem assign_tuple (s : VState) (C : Constraint) (x d : Nat)
    (hlt : x < s.length) :
    C.scope.map (getAssigned (assign s x d)) = specTuple s C x d := by
  unfold specTuple
  have hf : getAssigned (assign s x d) =
      fun w => if w = x then some d else getAssigned s w := by
    funext w
    by_cases hw : w = x
    · subst hw
      simp [getAssigned_assign_self s w d hlt]
    · simp [hw, getAssigned_assign_ne s x d w (fun he => hw he.symm)]
  rw [hf]

theorem specTuple_congr (σ s₀ : VState) (C : Constraint) (x d : Nat)
    (h : sameAssign σ s₀) : specTuple σ C x d = specTuple s₀ C x d := by
  unfold specTuple
  have hf : (fun w => if w = x then some d else getAssigned σ w) =
      fun w => if w = x then some d else getAssigned s₀ w := by
    funext w
    by_cases hw : w = x <;> simp [hw, h w]
  rw [hf]

theorem head_unasgn (s : VState) (C : Constraint) (x : Nat) (rest : List Nat)
    (h : unasgnVars s C = x :: rest) : getAssigned s x = none := by
  have hm : x ∈ unasgnVars s C := by rw [h]; exact List.mem_cons_self _ _
  have := List.of_mem_filter hm
  simpa [Option.isNone_iff_eq_none] using this

theorem fcCheckVals_eq (C : Constraint) (x : Nat) (ds : List Nat) (s : VState)
    (pr : List (Nat × Nat)) (hx : getAssigned s x = none) (hlt : x < s.length) :
    fcCheckVals C x ds s pr =
      ((ds.filter fun d => !(C.check (specTuple s C x d))).foldl
          (fun t d => pruneValue t x d) s,
       pr ++ (ds.filter fun d => !(C.check (specTuple s C x d))).map
          fun d => (x, d)) := by
  induction ds generalizing s pr with
  | nil => simp [fcCheckVals]
  | cons d ds ih =>
    have hf := assign_tuple s C x d hlt
    by_cases hc : C.check (specTuple s C x d) = true
    · rw [show fcCheckVals C x (d :: ds) s pr =
          fcCheckVals C x ds (unassign (assign s x d) x) pr by
        simp [fcCheckVals, hf, hc]]
      rw [unassign_assign s x d hx, ih s pr hx hlt]
      simp [List.filter_cons, hc]
    · have hcb : C.check (specTuple s C x d) = false := by
        simpa using hc
      rw [show fcCheckVals C x (d :: ds) s pr =
          fcCheckVals C x ds (unassign (pruneValue (assign s x d) x d) x)
            (pr ++ [(x, d)]) by
        simp [fcCheckVals, hf, hcb]]
      rw [unassign_pruneValue_assign s x d d hx]
      have hx2 : getAssigned (pruneValue s x d) x = none := by
        rw [getAssigned_pruneValue]; exact hx
      have hlt2 : x < (pruneValue s x d).length := by
        rw [length_pruneValue]; exact hlt
      rw [ih (pruneValue s x d) (pr ++ [(x, d)]) hx2 hlt2]
      have hg : getAssigned (pruneValue s x d) = getAssigned s := by
        funext w
        exact getAssigned_pruneValue s x d w
      have hst : ∀ d', specTuple (pruneValue s x d) C x d' = specTuple s C x d' := by
        intro d'
        unfold specTuple
        rw [hg]
      simp only [hst, List.filter_cons, hcb, Bool.not_false, if_pos]
      simp [List.foldl_cons]

theorem fc_check_eq (C : Constraint) (x : Nat) (pr : List (Nat × Nat))
    (s : VState) (hx : getAssigned s x = none) (hlt : x < s.length) :
    fc_check C x pr s =
      (if curDomainSize ((specFCbad s C x).foldl (fun t d => pruneValue t x d) s) x = 0
         then false else true,
       (specFCbad s C x).foldl (fun t d => pruneValue t x d) s,
       pr ++ (specFCbad s C x).map fun d => (x, d)) := by
  unfold fc_check specFCbad
  rw [fcCheckVals_eq C x (curDomain s x) s pr hx hlt]
  by_cases h0 : curDomainSize
      (((curDomain s x).filter fun d => !(C.check (specTuple s C x d))).foldl
        (fun t d => pruneValue t x d) s) x = 0 <;>
    simp [h0]

theorem fcLoop_eq_spec (cs : List Constraint) : ∀ (s : VState)
    (pr : List (Nat × Nat)), fcLoop cs s pr = specFCloop cs s pr := by
  induction cs with
  | nil => intro s pr; rfl
  | cons C cs ih =>
    intro s pr
    by_cases h1 : nUnasgn s C = 1
    · cases hu : unasgnVars s C with
      | nil => simp [fcLoop, specFCloop, h1, hu, ih s pr]
      | cons x rest =>
        have hx : getAssigned s x = none := head_unasgn s C x rest hu
        by_cases hlt : x < s.length
        · by_cases h0 : curDomainSize
              ((specFCbad s C x).foldl (fun t d => pruneValue t x d) s) x = 0
          · simp [fcLoop, specFCloop, h1, hu, fc_check_eq C x pr s hx hlt, h0]
          · simp [fcLoop, specFCloop, h1, hu, fc_check_eq C x pr s hx hlt, h0,
              ih _ _]
        · have hcd : curDomain s x = [] := curDomain_oob s x (Nat.le_of_not_lt hlt)
          have hsz : curDomainSize s x = 0 := by simp [curDomainSize, hcd]
          simp [fcLoop, specFCloop, h1, hu, fc_check, fcCheckVals, hcd, hsz,
            specFCbad]
    · simp [fcLoop, specFCloop, h1, ih s pr]

theorem prop_FC_eq_loop (csp : CSP) (s : VState) (v : Option Nat) :
    prop_FC csp s v = fcLoop (initQueue csp v) s [] := by
  cases v <;> rfl

theorem foldl_prune_map (s : VState) (x : Nat) (l : List Nat) :
    applyPrunes s (l.map fun d => (x, d)) =
      l.foldl (fun t d => pruneValue t x d) s := by
  simp [applyPrunes, List.foldl_map]

theorem specFCloop_state (cs : List Constraint) : ∀ (s : VState)
    (pr : List (Nat × Nat)), ∃ rest,
    (specFCloop cs s pr).2.2 = pr ++ rest ∧
    (specFCloop cs s pr).2.1 = applyPrunes s rest := by
  induction cs with
  | nil => intro s pr; exact ⟨[], by simp [specFCloop, applyPrunes]⟩
  | cons C cs ih =>
    intro s pr
    by_cases h1 : nUnasgn s C = 1
    · cases hu : unasgnVars s C with
      | nil => simpa [specFCloop, h1, hu] using ih s pr
      | cons x rest0 =>
        by_cases h0 : curDomainSize
            ((specFCbad s C x).foldl (fun t d => pruneValue t x d) s) x = 0
        · refine ⟨(specFCbad s C x).map fun d => (x, d), ?_, ?_⟩
          · simp [specFCloop, h1, hu, h0]
          · simp [specFCloop, h1, hu, h0, foldl_prune_map]
        · obtain ⟨rest, hr1, hr2⟩ :=
            ih ((specFCbad s C x).foldl (fun t d => pruneValue t x d) s)
              (pr ++ (specFCbad s C x).map fun d => (x, d))
          refine ⟨((specFCbad s C x).map fun d => (x, d)) ++ rest, ?_, ?_⟩
          · rw [show specFCloop (C :: cs) s pr = specFCloop cs
                ((specFCbad s C x).foldl (fun t d => pruneValue t x d) s)
                (pr ++ (specFCbad s C x).map fun d => (x, d)) by
              simp [specFCloop, h1, hu, h0]]
            rw [hr1]
            simp
          · rw [show specFCloop (C :: cs) s pr = specFCloop cs
                ((specFCbad s C x).foldl (fun t d => pruneValue t x d) s)
                (pr ++ (specFCbad s C x).map fun d => (x, d)) by
              simp [specFCloop, h1, hu, h0]]
            rw [hr2, applyPrunes_append, foldl_prune_map]
    · simpa [specFCloop, h1] using ih s pr

theorem specFCloop_false (cs : List Constraint) : ∀ (s : VState)
    (pr : List (Nat × Nat)) (s' : VState) (pr' : List (Nat × Nat)),
    specFCloop cs s pr = (false, s', pr') →
    ∃ x, getAssigned s' x = none ∧ curDomainSize s' x = 0 := by
  induction cs with
  | nil => intro s pr s' pr' h; exact absurd (congrArg Prod.fst h) (by simp [specFCloop])
  | cons C cs ih =>
    intro s pr s' pr' h
    by_cases h1 : nUnasgn s C = 1
    · cases hu : unasgnVars s C with
      | nil =>
        rw [show specFCloop (C :: cs) s pr = specFCloop cs s pr by
          simp [specFCloop, h1, hu]] at h
        exact ih s pr s' pr' h
      | cons x rest0 =>
        by_cases h0 : curDomainSize
            ((specFCbad s C x).foldl (fun t d => pruneValue t x d) s) x = 0
        · rw [show specFCloop (C :: cs) s pr =
            (false, (specFCbad s C x).foldl (fun t d => pruneValue t x d) s,
              pr ++ (specFCbad s C x).map fun d => (x, d)) by
            simp [specFCloop, h1, hu, h0]] at h
          refine ⟨x, ?_, ?_⟩
          · have hxn : getAssigned s x = none := head_unasgn s C x rest0 hu
            have : s' = (specFCbad s C x).foldl (fun t d => pruneValue t x d) s := by
              have := congrArg (fun p => p.2.1) h
              simpa using this.symm
            rw [this, ← foldl_prune_map, getAssigned_applyPrunes]
            exact hxn
          · have : s' = (specFCbad s C x).foldl (fun t d => pruneValue t x d) s := by
              have := congrArg (fun p => p.2.1) h
              simpa using this.symm
            rw [this]
            exact h0
        · rw [show specFCloop (C :: cs) s pr =
            specFCloop cs ((specFCbad s C x).foldl (fun t d => pruneValue t x d) s)
              (pr ++ (specFCbad s C x).map fun d => (x, d)) by
            simp [specFCloop, h1, hu, h0]] at h
          exact ih _ _ _ _ h
    · rw [show specFCloop (C :: cs) s pr = specFCloop cs s pr by
        simp [specFCloop, h1]] at h
      exact ih s pr s' pr' h

theorem specFCloop_asg (cs : List Constraint) (s : VState)
    (pr : List (Nat × Nat)) (w : Nat) :
    getAssigned (specFCloop cs s pr).2.1 w = getAssigned s w := by
  obtain ⟨rest, -, h2⟩ := specFCloop_state cs s pr
  rw [h2, getAssigned_applyPrunes]

theorem bt_snd_nil (csp : CSP) (s : VState) (nv : Option Nat) :
    (prop_BT csp s nv).2 = [] := by
  cases nv <;> rfl

theorem btLoop_false_iff (s : VState) (cs : List Constraint) :
    btLoop s cs = false ↔ ∃ C ∈ cs, nUnasgn s C = 0 ∧
      C.check (C.scope.map (getAssigned s)) = false := by
  induction cs with
  | nil => simp [btLoop]
  | cons C cs ih =>
    by_cases h : nUnasgn s C = 0 ∧ C.check (C.scope.map (getAssigned s)) = false
    · rw [show btLoop s (C :: cs) = false by simp [btLoop, h]]
      simp only [true_iff]
      exact ⟨C, List.mem_cons_self _ _, h⟩
    · rw [show btLoop s (C :: cs) = btLoop s cs by simp [btLoop, h], ih]
      constructor
      · rintro ⟨D, hD, hP⟩
        exact ⟨D, List.mem_cons_of_mem _ hD, hP⟩
      · rintro ⟨D, hD, hP⟩
        rcases List.mem_cons.mp hD with heq | hD'
        · exact absurd (heq ▸ hP) h
        · exact ⟨D, hD', hP⟩

theorem fcCheckVals_x_none (C : Constraint) (x : Nat) : ∀ (ds : List Nat)
    (s : VState) (pr : List (Nat × Nat)),
    getAssigned (fcCheckVals C x ds s pr).1 x =
      if ds.isEmpty then getAssigned s x else none := by
  intro ds
  induction ds with
  | nil => intro s pr; simp [fcCheckVals]
  | cons d ds ih =>
    intro s pr
    by_cases hc : C.check (C.scope.map (getAssigned (assign s x d))) = true
    · rw [show fcCheckVals C x (d :: ds) s pr =
        fcCheckVals C x ds (unassign (assign s x d) x) pr by
          simp [fcCheckVals, hc]]
      rw [ih]
      cases ds <;> simp [getAssigned_unassign_self]
    · rw [show fcCheckVals C x (d :: ds) s pr =
        fcCheckVals C x ds (unassign (pruneValue (assign s x d) x d) x)
          (pr ++ [(x, d)]) by simp [fcCheckVals, hc]]
      rw [ih]
      cases ds <;> simp [getAssigned_unassign_self]

/-- C3: forward checking does exactly what the specification says — for the
selected constraints (all of them without a recently assigned variable,
otherwise those referencing it), exactly those with one unassigned scope
variable `x` are processed; the values of `x`'s current domain whose
tentative tuple fails the check are pruned and recorded in order, and
constraints with two or more unassigned variables cause no pruning.  The
translated propagator coincides with the spec-side `specFC`. -/
theorem prop_FC_eq_specFC (csp : CSP) (s : VState) (newVar : Option Nat) :
    prop_FC csp s newVar = specFC csp s newVar := by
  unfold specFC
  rw [prop_FC_eq_loop, fcLoop_eq_spec]

/-- C5: when a forward-checking propagate call reports a deadend, the state
records exactly the returned pruned pairs (nothing is undone) and some
unassigned variable has an empty current domain. -/
theorem prop_FC_deadend (csp : CSP) (s : VState) (v : Option Nat)
    (s' : VState) (pr' : List (Nat × Nat))
    (h : prop_FC csp s v = (false, s', pr')) :
    s' = applyPrunes s pr' ∧
    ∃ x, getAssigned s' x = none ∧ curDomainSize s' x = 0 := by
  rw [prop_FC_eq_loop, fcLoop_eq_spec] at h
  obtain ⟨rest, h1, h2⟩ := specFCloop_state (initQueue csp v) s []
  rw [h] at h1 h2
  simp only [List.nil_append] at h1
  have h2' : s' = applyPrunes s rest := by simpa using h2
  refine ⟨by rw [h1]; exact h2', ?_⟩
  exact specFCloop_false (initQueue csp v) s [] s' pr' h

/-- C5 witness: a concrete deadend run of forward checking. -/
theorem prop_FC_deadend_witness :
    prop_FC csp5 s5 (some 0) =
      (false, [⟨[1, 2], [1, 2], some 1⟩, ⟨[1, 2], [], none⟩], [(1, 1)]) ∧
    ([⟨[1, 2], [1, 2], some 1⟩, ⟨[1, 2], [], none⟩] : VState) =
      applyPrunes s5 [(1, 1)] ∧
    ∃ x, getAssigned ([⟨[1, 2], [1, 2], some 1⟩, ⟨[1, 2], [], none⟩] : VState) x
        = none ∧
      curDomainSize ([⟨[1, 2], [1, 2], some 1⟩, ⟨[1, 2], [], none⟩] : VState) x
        = 0 := by
  refine ⟨by decide, ?_⟩
  exact prop_FC_deadend csp5 s5 (some 0) _ _ (by decide)

/-- C6: the plain-backtracking propagator returns `(true, [])` with no
recently assigned variable; with one it fails exactly when some constraint
referencing it is fully assigned and its assigned-value tuple fails the
check; and its pruned list is empty in every case. -/
theorem prop_BT_characterization :
    (∀ (csp : CSP) (s : VState), prop_BT csp s none = (true, [])) ∧
    (∀ (csp : CSP) (s : VState) (v : Nat),
      (prop_BT csp s (some v)).1 = false ↔
        ∃ C ∈ consWithVar csp v, nUnasgn s C = 0 ∧
          C.check (C.scope.map (getAssigned s)) = false) ∧
    (∀ (csp : CSP) (s : VState) (nv : Option Nat),
      (prop_BT csp s nv).2 = []) := by
  refine ⟨fun csp s => rfl, fun csp s v => ?_, bt_snd_nil⟩
  exact btLoop_false_iff s (consWithVar csp v)

/-- C8: every trial assignment made inside forward checking is retracted —
`fc_check` always leaves its tested variable unassigned, and a whole
`prop_FC` call leaves every variable's assignment slot exactly as it was
before the call. -/
theorem fc_frame_preservation :
    (∀ (C : Constraint) (x : Nat) (pr : List (Nat × Nat)) (s : VState),
      getAssigned (fc_check C x pr s).2.1 x = none) ∧
    (∀ (csp : CSP) (s : VState) (v : Option Nat) (w : Nat),
      getAssigned (prop_FC csp s v).2.1 w = getAssigned s w) := by
  constructor
  · intro C x pr s
    have hproj : (fc_check C x pr s).2.1 =
        (fcCheckVals C x (curDomain s x) s pr).1 := by
      unfold fc_check
      by_cases h0 : curDomainSize (fcCheckVals C x (curDomain s x) s pr).1 x = 0 <;>
        simp [h0]
    rw [hproj]
    cases hcd : curDomain s x with
    | nil =>
      rw [show fcCheckVals C x [] s pr = (s, pr) from rfl]
      cases hA : getAssigned s x with
      | none => rfl
      | some a =>
        rw [curDomain_of_assigned s x a hA] at hcd
        exact absurd hcd (by simp)
    | cons d ds =>
      rw [fcCheckVals_x_none]
      simp
  · intro csp s v w
    rw [prop_FC_eq_loop, fcLoop_eq_spec]
    exact specFCloop_asg _ _ _ _

/-! ## GAC wipeout behavior -/

theorem gacVals_state (C : Constraint) (v : Nat) : ∀ (ds : List Nat)
    (s : VState) (q ng : List Constraint) (pr : List (Nat × Nat)), ∃ rest,
    (gacVals C v ds s q ng pr).pr = pr ++ rest ∧
    (gacVals C v ds s q ng pr).st = applyPrunes s rest ∧
    ((gacVals C v ds s q ng pr).wipe = true →
      (gacVals C v ds s q ng pr).q = [] ∧
      ∃ p : Nat × Nat, (gacVals C v ds s q ng pr).pr.getLast? = some p ∧
        curDomainSize (gacVals C v ds s q ng pr).st p.1 = 0) := by
  intro ds
  induction ds with
  | nil =>
    intro s q ng pr
    exact ⟨[], by simp [gacVals, applyPrunes]⟩
  | cons d ds ih =>
    intro s q ng pr
    by_cases hs : hasSupport s C v d = true
    · rw [show gacVals C v (d :: ds) s q ng pr = gacVals C v ds s q ng pr by
        simp [gacVals, hs]]
      exact ih s q ng pr
    · by_cases h0 : curDomainSize (pruneValue s v d) v = 0
      · rw [show gacVals C v (d :: ds) s q ng pr =
          ⟨true, pruneValue s v d, [], ng, pr ++ [(v, d)]⟩ by
            simp [gacVals, hs, h0]]
        refine ⟨[(v, d)], by simp, by simp [applyPrunes], fun _ => ⟨rfl, ?_⟩⟩
        exact ⟨(v, d), by simp, h0⟩
      · rw [show gacVals C v (d :: ds) s q ng pr =
          gacVals C v ds (pruneValue s v d) (requeue v ng q).2 (requeue v ng q).1
            (pr ++ [(v, d)]) by simp [gacVals, hs, h0]]
        obtain ⟨rest, h1, h2, h3⟩ :=
          ih (pruneValue s v d) (requeue v ng q).2 (requeue v ng q).1
            (pr ++ [(v, d)])
        refine ⟨(v, d) :: rest, ?_, ?_, h3⟩
        · rw [h1]; simp
        · rw [h2]; simp [applyPrunes]

theorem gacScope_state (C : Constraint) : ∀ (vs : List Nat) (s : VState)
    (q ng : List Constraint) (pr : List (Nat × Nat)), ∃ rest,
    (gacScope C vs s q ng pr).pr = pr ++ rest ∧
    (gacScope C vs s q ng pr).st = applyPrunes s rest ∧
    ((gacScope C vs s q ng pr).wipe = true →
      (gacScope C vs s q ng pr).q = [] ∧
      ∃ p : Nat × Nat, (gacScope C vs s q ng pr).pr.getLast? = some p ∧
        curDomainSize (gacScope C vs s q ng pr).st p.1 = 0) := by
  intro vs
  induction vs with
  | nil =>
    intro s q ng pr
    exact ⟨[], by simp [gacScope, applyPrunes]⟩
  | cons v vs ih =>
    intro s q ng pr
    by_cases hw : (gacVals C v (curDomain s v) s q ng pr).wipe = true
    · rw [show gacScope C (v :: vs) s q ng pr =
        gacVals C v (curDomain s v) s q ng pr by simp [gacScope, hw]]
      exact gacVals_state C v (curDomain s v) s q ng pr
    · rw [show gacScope C (v :: vs) s q ng pr =
        gacScope C vs (gacVals C v (curDomain s v) s q ng pr).st
          (gacVals C v (curDomain s v) s q ng pr).q
          (gacVals C v (curDomain s v) s q ng pr).ng
          (gacVals C v (curDomain s v) s q ng pr).pr by simp [gacScope, hw]]
      obtain ⟨rest1, g1, g2, -⟩ := gacVals_state C v (curDomain s v) s q ng pr
      obtain ⟨rest2, h1, h2, h3⟩ := ih (gacVals C v (curDomain s v) s q ng pr).st
        (gacVals C v (curDomain s v) s q ng pr).q
        (gacVals C v (curDomain s v) s q ng pr).ng
        (gacVals C v (curDomain s v) s q ng pr).pr
      refine ⟨rest1 ++ rest2, ?_, ?_, h3⟩
      · rw [h1, g1]; simp
      · rw [h2, g2, applyPrunes_append]

theorem gac_enforce_spec : ∀ (fuel : Nat) (q ng : List Constraint)
    (s : VState) (pr : List (Nat × Nat)) (b : Bool) (s' : VState)
    (q' ng' : List Constraint) (pr' : List (Nat × Nat)),
    gac_enforce fuel q ng s pr = some (b, s', q', ng', pr') →
    (∃ rest, pr' = pr ++ rest ∧ s' = applyPrunes s rest) ∧
    (b = false → q' = [] ∧ ∃ p : Nat × Nat, pr'.getLast? = some p ∧
      curDomainSize s' p.1 = 0) := by
  intro fuel
  induction fuel with
  | zero =>
    intro q ng s pr b s' q' ng' pr' h
    cases q with
    | nil =>
      rw [show gac_enforce 0 [] ng s pr = some (true, s, [], ng, pr) from rfl] at h
      simp only [Option.some.injEq, Prod.mk.injEq] at h
      obtain ⟨hb, hs, hq, hng, hpr⟩ := h
      refine ⟨⟨[], by rw [← hpr]; simp, by rw [← hs]; simp [applyPrunes]⟩, ?_⟩
      intro hfalse
      rw [← hb] at hfalse
      exact absurd hfalse (by simp)
    | cons C q2 =>
      rw [show gac_enforce 0 (C :: q2) ng s pr = none from rfl] at h
      exact absurd h (by simp)
  | succ fuel ih =>
    intro q ng s pr b s' q' ng' pr' h
    cases q with
    | nil =>
      rw [show gac_enforce (fuel + 1) [] ng s pr = some (true, s, [], ng, pr)
        from rfl] at h
      simp only [Option.some.injEq, Prod.mk.injEq] at h
      obtain ⟨hb, hs, hq, hng, hpr⟩ := h
      refine ⟨⟨[], by rw [← hpr]; simp, by rw [← hs]; simp [applyPrunes]⟩, ?_⟩
      intro hfalse
      rw [← hb] at hfalse
      exact absurd hfalse (by simp)
    | cons C q2 =>
      have hstep : gac_enforce (fuel + 1) (C :: q2) ng s pr =
          (if (gacScope C C.scope s q2 (ng ++ [C]) pr).wipe = true then
            some (false, (gacScope C C.scope s q2 (ng ++ [C]) pr).st,
              (gacScope C C.scope s q2 (ng ++ [C]) pr).q,
              (gacScope C C.scope s q2 (ng ++ [C]) pr).ng,
              (gacScope C C.scope s q2 (ng ++ [C]) pr).pr)
          else gac_enforce fuel (gacScope C C.scope s q2 (ng ++ [C]) pr).q
            (gacScope C C.scope s q2 (ng ++ [C]) pr).ng
            (gacScope C C.scope s q2 (ng ++ [C]) pr).st
            (gacScope C C.scope s q2 (ng ++ [C]) pr).pr) := rfl
      rw [hstep] at h
      by_cases hw : (gacScope C C.scope s q2 (ng ++ [C]) pr).wipe = true
      · rw [if_pos hw] at h
        simp only [Option.some.injEq, Prod.mk.injEq] at h
        obtain ⟨hb, hs, hq, hng, hpr⟩ := h
        obtain ⟨rest, g1, g2, g3⟩ := gacScope_state C C.scope s q2 (ng ++ [C]) pr
        obtain ⟨g4, p, g5, g6⟩ := g3 hw
        refine ⟨⟨rest, by rw [← hpr, g1], by rw [← hs, g2]⟩, fun _ => ?_⟩
        exact ⟨by rw [← hq, g4], p, by rw [← hpr]; exact g5, by rw [← hs]; exact g6⟩
      · rw [if_neg hw] at h
        obtain ⟨⟨rest2, h1, h2⟩, h3⟩ := ih _ _ _ _ _ _ _ _ _ h
        obtain ⟨rest1, g1, g2, -⟩ := gacScope_state C C.scope s q2 (ng ++ [C]) pr
        refine ⟨⟨rest1 ++ rest2, ?_, ?_⟩, h3⟩
        · rw [h1, g1]; simp
        · rw [h2, g2, applyPrunes_append]

/-- C4: when a GAC propagate call reports a domain wipeout it returns
`(false, pruned)` with the pending queue cleared; the final state records
exactly the returned pruned pairs (no pruning is undone), the list is
nonempty, and its last pair is the prune that emptied its variable's
current domain. -/
theorem prop_GAC_wipeout (fuel : Nat) (csp : CSP) (s : VState)
    (v : Option Nat) (s' : VState) (pr : List (Nat × Nat))
    (h : prop_GAC fuel csp s v = some (false, s', pr)) :
    s' = applyPrunes s pr ∧ pr ≠ [] ∧
    (∃ p : Nat × Nat, pr.getLast? = some p ∧ curDomainSize s' p.1 = 0) ∧
    ∃ ng', gac_enforce fuel (initQueue csp v) (initSettled csp v) s [] =
      some (false, s', [], ng', pr) := by
  unfold prop_GAC at h
  cases he : gac_enforce fuel (initQueue csp v) (initSettled csp v) s [] with
  | none => rw [he] at h; exact absurd h (by simp)
  | some t =>
    obtain ⟨b, s2, q2, ng2, pr2⟩ := t
    rw [he] at h
    simp only [Option.some.injEq, Prod.mk.injEq] at h
    obtain ⟨hb, hs, hpr⟩ := h
    obtain ⟨⟨rest, m1, m2⟩, m3⟩ := gac_enforce_spec fuel _ _ s [] b s2 q2 ng2 pr2 he
    simp only [List.nil_append] at m1
    obtain ⟨mq, p, mp1, mp2⟩ := m3 hb
    refine ⟨?_, ?_, ⟨p, ?_, ?_⟩, ⟨ng2, ?_⟩⟩
    · rw [← hs, ← hpr, m2, m1]
    · intro hemp
      rw [hpr, hemp] at mp1
      exact absurd mp1 (by simp)
    · rw [← hpr]; exact mp1
    · rw [← hs]; exact mp2
    · rw [hb, hs, hpr, mq]

/-- C4 witness: the GAC wipeout theorem applied to a concrete run that
empties variable 2's current domain. -/
theorem prop_GAC_wipeout_witness :
    prop_GAC 10 csp7 s7 (some 0) =
      some (false, s7w, [(0, 1), (1, 1), (0, 1), (2, 1)]) ∧
    (s7w = applyPrunes s7 [(0, 1), (1, 1), (0, 1), (2, 1)] ∧
     [(0, 1), (1, 1), (0, 1), (2, 1)] ≠ ([] : List (Nat × Nat)) ∧
     (∃ p : Nat × Nat, [(0, 1), (1, 1), (0, 1), (2, 1)].getLast? = some p ∧
       curDomainSize s7w p.1 = 0) ∧
     ∃ ng', gac_enforce 10 (initQueue csp7 (some 0)) (initSettled csp7 (some 0))
        s7 [] = some (false, s7w, [], ng', [(0, 1), (1, 1), (0, 1), (2, 1)])) :=
  ⟨by decide, prop_GAC_wipeout 10 csp7 s7 (some 0) s7w
    [(0, 1), (1, 1), (0, 1), (2, 1)] (by decide)⟩

/-! ## Concrete refutations and the grid mutation -/

/-- C1 (code bug): the re-enqueue step iterates the settled list while
removing from it, so of two consecutive settled constraints that both
reference the pruned variable only the first is moved; here `cB`, whose
scope contains variable 0, stays on the settled list after the step. -/
theorem requeue_skips_settled :
    requeue 0 [cA, cB] [] = ([cB], [cA]) ∧ 0 ∈ cB.scope :=
  ⟨by decide, by decide⟩

/-- C2 (code bug): GAC propagation is not idempotent — on `csp2`/`s2` a
first successful call prunes `(1, 2)` but strands the ternary constraint in
the settled list (the re-enqueue skip), and an immediately repeated call
with the same newly assigned variable prunes `(2, 2)` instead of returning
`(true, [])`. -/
theorem gac_not_idempotent :
    prop_GAC 10 csp2 s2 (some 0) = some (true, s2b, [(1, 2)]) ∧
    prop_GAC 10 csp2 s2b (some 0) = some (true, s2c, [(2, 2)]) ∧
    [((2 : Nat), (2 : Nat))] ≠ [] :=
  ⟨by decide, by decide, by decide⟩

/-- C7 (code bug): a GAC propagate call on `csp7`/`s7` returns the pair
`(0, 1)` twice — variable 0 is assigned, so pruning its value never empties
its observed current domain and each unsupported re-check prunes again. -/
theorem gac_double_prune :
    prop_GAC 10 csp7 s7 (some 0) =
      some (false, s7w, [(0, 1), (1, 1), (0, 1), (2, 1)]) ∧
    List.count ((0 : Nat), (1 : Nat)) [(0, 1), (1, 1), (0, 1), (2, 1)] = 2 :=
  ⟨by decide, by decide⟩

theorem map_eq_self_mem {α : Type} (f : α → α) : ∀ (l : List α),
    l.map f = l → ∀ a ∈ l, f a = a := by
  intro l
  induction l with
  | nil => intro _ a ha; simp at ha
  | cons b t ih =>
    intro h a ha
    simp only [List.map_cons, List.cons.injEq] at h
    rcases List.mem_cons.mp ha with heq | ha'
    · rw [heq]; exact h.1
    · exact ih h.2 a ha'

/-- C10: `caged_csp_model` mutates its `fpuzz_grid` argument — every cage
entry of length other than two (in particular of length greater than two)
loses its operator code and target value from the end, so whenever some
cage has length greater than two the caller's grid no longer equals the
value passed in. -/
theorem caged_csp_model_grid_mutates (g : List (List Nat))
    (h : ∃ c ∈ g.tail, 2 < c.length) :
    caged_csp_model_grid g ≠ g ∧
    (caged_csp_model_grid g).tail =
      g.tail.map fun c => if c.length = 2 then c else c.dropLast.dropLast := by
  obtain ⟨c, hc, hlen⟩ := h
  cases g with
  | nil => simp at hc
  | cons header cages =>
    simp only [List.tail_cons] at hc
    constructor
    · intro heq
      have hmap : cages.map
          (fun c => if c.length = 2 then c else c.dropLast.dropLast) = cages := by
        simpa [caged_csp_model_grid] using congrArg List.tail heq
      have hfc := map_eq_self_mem _ cages hmap c hc
      rw [if_neg (by omega)] at hfc
      have hlen2 : c.dropLast.dropLast.length = c.length := by rw [hfc]
      rw [List.length_dropLast, List.length_dropLast] at hlen2
      omega
    · simp [caged_csp_model_grid]

/-- C10 witness: the mutation theorem applied to a two-cage FunPuzz grid
whose single cage has four entries. -/
theorem caged_csp_model_grid_mutates_witness :
    (∃ c ∈ ([[2], [11, 12, 3, 0]] : List (List Nat)).tail, 2 < c.length) ∧
    (caged_csp_model_grid [[2], [11, 12, 3, 0]] ≠ [[2], [11, 12, 3, 0]] ∧
     (caged_csp_model_grid [[2], [11, 12, 3, 0]]).tail =
       ([[2], [11, 12, 3, 0]] : List (List Nat)).tail.map
         fun c => if c.length = 2 then c else c.dropLast.dropLast) :=
  ⟨by decide, caged_csp_model_grid_mutates [[2], [11, 12, 3, 0]] (by decide)⟩

/-! ## GAC subsumes FC: support bridge -/

theorem mem_zip_left {α β : Type} : ∀ {l1 : List α} {l2 : List β} {p : α × β},
    p ∈ l1.zip l2 → p.1 ∈ l1 := by
  intro l1
  induction l1 with
  | nil => intro l2 p hp; simp [List.zip] at hp
  | cons a t ih =>
    intro l2 p hp
    cases l2 with
    | nil => simp at hp
    | cons b t2 =>
      have hp' : p ∈ (a, b) :: t.zip t2 := hp
      rcases List.mem_cons.mp hp' with heq | hmem
      · rw [heq]; exact List.mem_cons_self _ _
      · exact List.mem_cons_of_mem _ (ih hmem)

theorem map_some_eq_of_zip : ∀ (sc t : List Nat) (f : Nat → Option Nat),
    t.length = sc.length → (∀ p ∈ sc.zip t, some p.2 = f p.1) →
    t.map some = sc.map f := by
  intro sc
  induction sc with
  | nil =>
    intro t f hlen _
    cases t with
    | nil => rfl
    | cons v vs => simp at hlen
  | cons w ws ih =>
    intro t f hlen hall
    cases t with
    | nil => simp at hlen
    | cons v vs =>
      have hhead : some v = f w := hall (w, v) (List.mem_cons_self _ _)
      have htail : vs.map some = ws.map f :=
        ih vs f (by simpa using hlen)
          (fun p hp => hall p (List.mem_cons_of_mem _ hp))
      simp only [List.map_cons]
      rw [hhead, htail]

theorem unasgn_other_assigned (s₀ : VState) (C : Constraint) (x : Nat)
    (h : unasgnVars s₀ C = [x]) (w : Nat) (hw : w ∈ C.scope) (hne : w ≠ x) :
    ∃ a, getAssigned s₀ w = some a := by
  cases hA : getAssigned s₀ w with
  | some a => exact ⟨a, rfl⟩
  | none =>
    have hm : w ∈ unasgnVars s₀ C :=
      List.mem_filter.mpr ⟨hw, by simp [hA]⟩
    rw [h] at hm
    exact absurd (by simpa using hm) hne

theorem x_mem_scope (s₀ : VState) (C : Constraint) (x : Nat)
    (h : unasgnVars s₀ C = [x]) : x ∈ C.scope := by
  have hm : x ∈ unasgnVars s₀ C := by rw [h]; exact List.mem_cons_self _ _
  exact (List.mem_filter.mp hm).1

theorem noSupport_of_FCfail (s₀ σ : VState) (C : Constraint) (x d : Nat)
    (hfail : FCfail s₀ C x d) (hasg : sameAssign σ s₀) :
    hasSupport σ C x d = false := by
  cases hba : hasSupport σ C x d with
  | false => rfl
  | true =>
    exfalso
    unfold hasSupport at hba
    rw [List.any_eq_true] at hba
    obtain ⟨t, ht, hcond⟩ := hba
    rw [Bool.and_eq_true] at hcond
    obtain ⟨hlen, hall⟩ := hcond
    rw [decide_eq_true_eq] at hlen
    rw [List.all_eq_true] at hall
    have hmap : t.map some =
        C.scope.map (fun w => if w = x then some d else getAssigned s₀ w) := by
      apply map_some_eq_of_zip C.scope t _ hlen
      intro p hp
      have hcp := hall p hp
      by_cases hpx : p.1 = x
      · rw [if_pos hpx] at hcp
        rw [if_pos hpx]
        rw [decide_eq_true_eq] at hcp
        rw [hcp]
      · rw [if_neg hpx] at hcp
        rw [decide_eq_true_eq] at hcp
        obtain ⟨a, ha⟩ :=
          unasgn_other_assigned s₀ C x hfail.1 p.1 (mem_zip_left hp) hpx
        have hcd : curDomain σ p.1 = [a] :=
          curDomain_of_assigned σ p.1 a (by rw [hasg p.1]; exact ha)
        rw [hcd] at hcp
        rw [if_neg hpx, ha]
        have : p.2 = a := by simpa using hcp
        rw [this]
    have hchk := hfail.2
    unfold Constraint.check at hchk
    have htrue : (C.tuples.any fun t' =>
        decide (t'.map some = specTuple s₀ C x d)) = true := by
      rw [List.any_eq_true]
      refine ⟨t, ht, ?_⟩
      rw [decide_eq_true_eq, hmap]
      rfl
    rw [htrue] at hchk
    exact absurd hchk (by simp)

/-! ## GAC subsumes FC: invariant plumbing -/

theorem sameAssign_prune (σ s₀ : VState) (v e : Nat) (h : sameAssign σ s₀) :
    sameAssign (pruneValue σ v e) s₀ :=
  fun w => (getAssigned_pruneValue σ v e w).trans (h w)

theorem GBase_prune (s₀ s : VState) (pr : List (Nat × Nat)) (v e : Nat)
    (h : GBase s₀ s pr) : GBase s₀ (pruneValue s v e) (pr ++ [(v, e)]) := by
  refine ⟨sameAssign_prune s s₀ v e h.asg, fun x d hd0 hdn => ?_⟩
  by_cases hdm : d ∈ curDomain s x
  · obtain ⟨hw, hde⟩ := curDomain_pruneValue_missing s v e x d hdm hdn
    rw [hw, hde]
    exact List.mem_append_right _ (List.mem_singleton.mpr rfl)
  · exact List.mem_append_left _ (h.seen x d hd0 hdm)

theorem curDomain_applyPrunes_subset (pr : List (Nat × Nat)) : ∀ (s : VState)
    (x e : Nat), e ∈ curDomain (applyPrunes s pr) x → e ∈ curDomain s x := by
  induction pr with
  | nil => intro s x e h; exact h
  | cons p t ih =>
    intro s x e h
    have : e ∈ curDomain (pruneValue s p.1 p.2) x := ih _ x e h
    exact curDomain_pruneValue_subset s p.1 p.2 x e this

theorem requeueAux_q_mono (v : Nat) : ∀ (fuel i : Nat)
    (ng q : List Constraint) (c : Constraint), c ∈ q →
    c ∈ (requeueAux v fuel i ng q).2 := by
  intro fuel
  induction fuel with
  | zero => intro i ng q c hc; exact hc
  | succ fuel ih =>
    intro i ng q c hc
    rw [requeueAux]
    split
    · next h =>
      change c ∈ (if v ∈ (ng.get ⟨i, h⟩).scope then
        requeueAux v fuel (i + 1) (ng.eraseIdx i) (q ++ [ng.get ⟨i, h⟩])
        else requeueAux v fuel (i + 1) ng q).2
      split
      · exact ih _ _ _ c (List.mem_append_left _ hc)
      · exact ih _ _ _ c hc
    · exact hc

theorem requeue_q_mono (v : Nat) (ng q : List Constraint) (c : Constraint)
    (hc : c ∈ q) : c ∈ (requeue v ng q).2 :=
  requeueAux_q_mono v ng.length 0 ng q c hc

theorem gacVals_key (s₀ : VState) (C : Constraint) (v : Nat) : ∀ (ds : List Nat)
    (s : VState) (q ng : List Constraint) (pr : List (Nat × Nat)),
    GBase s₀ s pr → (gacVals C v ds s q ng pr).wipe = false →
    GBase s₀ (gacVals C v ds s q ng pr).st (gacVals C v ds s q ng pr).pr ∧
    (∀ p ∈ pr, p ∈ (gacVals C v ds s q ng pr).pr) ∧
    (∀ c ∈ q, c ∈ (gacVals C v ds s q ng pr).q) ∧
    (∀ x e, e ∈ curDomain (gacVals C v ds s q ng pr).st x →
      e ∈ curDomain s x) ∧
    (∀ d ∈ ds, noSupInv s₀ C v d → (v, d) ∈ (gacVals C v ds s q ng pr).pr) := by
  intro ds
  induction ds with
  | nil =>
    intro s q ng pr hbase _
    exact ⟨hbase, fun p hp => hp, fun c hc => hc, fun x e he => he,
      fun d hd => absurd hd (by simp)⟩
  | cons d ds ih =>
    intro s q ng pr hbase hw
    by_cases hsup : hasSupport s C v d = true
    · rw [show gacVals C v (d :: ds) s q ng pr = gacVals C v ds s q ng pr by
        simp [gacVals, hsup]] at hw ⊢
      obtain ⟨b1, b2, b3, b4, b5⟩ := ih s q ng pr hbase hw
      refine ⟨b1, b2, b3, b4, fun d' hd' hno => ?_⟩
      rcases List.mem_cons.mp hd' with heq | hmem
      · exact absurd (heq ▸ hno s hbase.asg) (by simp [hsup])
      · exact b5 d' hmem hno
    · have hsupf : hasSupport s C v d = false := by simpa using hsup
      by_cases h0 : curDomainSize (pruneValue s v d) v = 0
      · rw [show gacVals C v (d :: ds) s q ng pr =
          ⟨true, pruneValue s v d, [], ng, pr ++ [(v, d)]⟩ by
            simp [gacVals, hsupf, h0]] at hw
        exact absurd hw (by simp)
      · rw [show gacVals C v (d :: ds) s q ng pr =
          gacVals C v ds (pruneValue s v d) (requeue v ng q).2 (requeue v ng q).1
            (pr ++ [(v, d)]) by simp [gacVals, hsupf, h0]] at hw ⊢
        obtain ⟨b1, b2, b3, b4, b5⟩ := ih (pruneValue s v d) (requeue v ng q).2
          (requeue v ng q).1 (pr ++ [(v, d)])
          (GBase_prune s₀ s pr v d hbase) hw
        refine ⟨b1, ?_, ?_, ?_, ?_⟩
        · exact fun p hp => b2 p (List.mem_append_left _ hp)
        · exact fun c hc => b3 c (requeue_q_mono v ng q c hc)
        · exact fun x e he =>
            curDomain_pruneValue_subset s v d x e (b4 x e he)
        · intro d' hd' hno
          rcases List.mem_cons.mp hd' with heq | hmem
          · rw [heq]
            exact b2 (v, d) (List.mem_append_right _ (by simp))
          · exact b5 d' hmem hno

theorem gacScope_key (s₀ : VState) (C : Constraint) : ∀ (vs : List Nat)
    (s : VState) (q ng : List Constraint) (pr : List (Nat × Nat)),
    GBase s₀ s pr → (gacScope C vs s q ng pr).wipe = false →
    GBase s₀ (gacScope C vs s q ng pr).st (gacScope C vs s q ng pr).pr ∧
    (∀ p ∈ pr, p ∈ (gacScope C vs s q ng pr).pr) ∧
    (∀ c ∈ q, c ∈ (gacScope C vs s q ng pr).q) ∧
    (∀ x e, e ∈ curDomain (gacScope C vs s q ng pr).st x →
      e ∈ curDomain s x) ∧
    (∀ v ∈ vs, ∀ d, noSupInv s₀ C v d →
      (v, d) ∈ (gacScope C vs s q ng pr).pr ∨
      d ∉ curDomain (gacScope C vs s q ng pr).st v) := by
  intro vs
  induction vs with
  | nil =>
    intro s q ng pr hbase _
    exact ⟨hbase, fun p hp => hp, fun c hc => hc, fun x e he => he,
      fun v hv => absurd hv (by simp)⟩
  | cons v vs ih =>
    intro s q ng pr hbase hw
    by_cases hw1 : (gacVals C v (curDomain s v) s q ng pr).wipe = true
    · rw [show gacScope C (v :: vs) s q ng pr =
        gacVals C v (curDomain s v) s q ng pr by simp [gacScope, hw1]] at hw
      exact absurd hw (by simp [hw1])
    · have hw1f : (gacVals C v (curDomain s v) s q ng pr).wipe = false := by
        simpa using hw1
      rw [show gacScope C (v :: vs) s q ng pr =
        gacScope C vs (gacVals C v (curDomain s v) s q ng pr).st
          (gacVals C v (curDomain s v) s q ng pr).q
          (gacVals C v (curDomain s v) s q ng pr).ng
          (gacVals C v (curDomain s v) s q ng pr).pr by
            simp [gacScope, hw1f]] at hw ⊢
      obtain ⟨a1, a2, a3, a4, a5⟩ :=
        gacVals_key s₀ C v (curDomain s v) s q ng pr hbase hw1f
      obtain ⟨b1, b2, b3, b4, b5⟩ := ih (gacVals C v (curDomain s v) s q ng pr).st
        (gacVals C v (curDomain s v) s q ng pr).q
        (gacVals C v (curDomain s v) s q ng pr).ng
        (gacVals C v (curDomain s v) s q ng pr).pr a1 hw
      refine ⟨b1, fun p hp => b2 p (a2 p hp), fun c hc => b3 c (a3 c hc),
        fun x e he => a4 x e (b4 x e he), ?_⟩
      intro v' hv' d hno
      rcases List.mem_cons.mp hv' with heq | hmem
      · subst heq
        by_cases hd : d ∈ curDomain s v'
        · exact Or.inl (b2 (v', d) (a5 d hd hno))
        · right
          intro hcontra
          exact hd (a4 v' d (b4 v' d hcontra))
      · exact b5 v' hmem d hno

theorem gac_enforce_key (s₀ : VState) (sel : List Constraint) : ∀ (fuel : Nat)
    (q ng : List Constraint) (s : VState) (pr : List (Nat × Nat))
    (s' : VState) (q' ng' : List Constraint) (pr' : List (Nat × Nat)),
    gac_enforce fuel q ng s pr = some (true, s', q', ng', pr') →
    GBase s₀ s pr →
    (∀ C ∈ sel, ∀ x d, FCfail s₀ C x d →
      C ∈ q ∨ (x, d) ∈ pr ∨ d ∉ curDomain s x) →
    ∀ C ∈ sel, ∀ x d, FCfail s₀ C x d → d ∈ curDomain s₀ x → (x, d) ∈ pr' := by
  intro fuel
  induction fuel with
  | zero =>
    intro q ng s pr s' q' ng' pr' h hbase hkey C hC x d hf hd0
    cases q with
    | nil =>
      rw [show gac_enforce 0 [] ng s pr = some (true, s, [], ng, pr) from rfl] at h
      simp only [Option.some.injEq, Prod.mk.injEq] at h
      obtain ⟨-, hs, -, -, hpr⟩ := h
      rcases hkey C hC x d hf with hq | hp | hdn
      · exact absurd hq (by simp)
      · rw [← hpr]; exact hp
      · rw [← hpr]; exact hbase.seen x d hd0 hdn
    | cons D q2 =>
      rw [show gac_enforce 0 (D :: q2) ng s pr = none from rfl] at h
      exact absurd h (by simp)
  | succ fuel ih =>
    intro q ng s pr s' q' ng' pr' h hbase hkey C hC x d hf hd0
    cases q with
    | nil =>
      rw [show gac_enforce (fuel + 1) [] ng s pr = some (true, s, [], ng, pr)
        from rfl] at h
      simp only [Option.some.injEq, Prod.mk.injEq] at h
      obtain ⟨-, hs, -, -, hpr⟩ := h
      rcases hkey C hC x d hf with hq | hp | hdn
      · exact absurd hq (by simp)
      · rw [← hpr]; exact hp
      · rw [← hpr]; exact hbase.seen x d hd0 hdn
    | cons D q2 =>
      have hstep : gac_enforce (fuel + 1) (D :: q2) ng s pr =
          (if (gacScope D D.scope s q2 (ng ++ [D]) pr).wipe = true then
            some (false, (gacScope D D.scope s q2 (ng ++ [D]) pr).st,
              (gacScope D D.scope s q2 (ng ++ [D]) pr).q,
              (gacScope D D.scope s q2 (ng ++ [D]) pr).ng,
              (gacScope D D.scope s q2 (ng ++ [D]) pr).pr)
          else gac_enforce fuel (gacScope D D.scope s q2 (ng ++ [D]) pr).q
            (gacScope D D.scope s q2 (ng ++ [D]) pr).ng
            (gacScope D D.scope s q2 (ng ++ [D]) pr).st
            (gacScope D D.scope s q2 (ng ++ [D]) pr).pr) := rfl
      rw [hstep] at h
      by_cases hwipe : (gacScope D D.scope s q2 (ng ++ [D]) pr).wipe = true
      · rw [if_pos hwipe] at h
        simp only [Option.some.injEq, Prod.mk.injEq] at h
        exact absurd h.1 (by simp)
      · rw [if_neg hwipe] at h
        have hwf : (gacScope D D.scope s q2 (ng ++ [D]) pr).wipe = false := by
          simpa using hwipe
        obtain ⟨b1, b2, b3, b4, b5⟩ :=
          gacScope_key s₀ D D.scope s q2 (ng ++ [D]) pr hbase hwf
        refine ih (gacScope D D.scope s q2 (ng ++ [D]) pr).q
          (gacScope D D.scope s q2 (ng ++ [D]) pr).ng
          (gacScope D D.scope s q2 (ng ++ [D]) pr).st
          (gacScope D D.scope s q2 (ng ++ [D]) pr).pr
          s' q' ng' pr' h b1 ?_ C hC x d hf hd0
        intro E hE y e hfE
        rcases hkey E hE y e hfE with hq | hp | hdn
        · rcases List.mem_cons.mp hq with heq | hq2
          · subst heq
            have hys : y ∈ E.scope := x_mem_scope s₀ E y hfE.1
            have hno : noSupInv s₀ E y e :=
              fun σ hσ => noSupport_of_FCfail s₀ σ E y e hfE hσ
            rcases b5 y hys e hno with hin | hout
            · exact Or.inr (Or.inl hin)
            · exact Or.inr (Or.inr hout)
          · exact Or.inl (b3 E hq2)
        · exact Or.inr (Or.inl (b2 (y, e) hp))
        · refine Or.inr (Or.inr ?_)
          intro hcontra
          exact hdn (b4 y e hcontra)

theorem specFCloop_sound (s₀ : VState) : ∀ (cs : List Constraint) (s : VState)
    (pr : List (Nat × Nat)),
    sameAssign s s₀ →
    (∀ x e, e ∈ curDomain s x → e ∈ curDomain s₀ x) →
    ∀ p ∈ (specFCloop cs s pr).2.2,
      p ∈ pr ∨ ∃ C ∈ cs, FCfail s₀ C p.1 p.2 ∧ p.2 ∈ curDomain s₀ p.1 := by
  intro cs
  induction cs with
  | nil =>
    intro s pr _ _ p hp
    exact Or.inl (by simpa [specFCloop] using hp)
  | cons C cs ih =>
    intro s pr hasg hsub p hp
    by_cases h1 : nUnasgn s C = 1
    · cases hu : unasgnVars s C with
      | nil =>
        rw [show specFCloop (C :: cs) s pr = specFCloop cs s pr by
          simp [specFCloop, h1, hu]] at hp
        rcases ih s pr hasg hsub p hp with hl | ⟨D, hD, hf⟩
        · exact Or.inl hl
        · exact Or.inr ⟨D, List.mem_cons_of_mem _ hD, hf⟩
      | cons x rest0 =>
        have hrest : rest0 = [] := by
          have hlen : (unasgnVars s C).length = 1 := h1
          rw [hu] at hlen
          simpa using hlen
        subst hrest
        have hu0 : unasgnVars s₀ C = [x] := by
          rw [← hu]
          unfold unasgnVars
          apply List.filter_congr
          intro w _
          rw [hasg w]
        have hbadp : ∀ d ∈ specFCbad s C x,
            FCfail s₀ C x d ∧ d ∈ curDomain s₀ x := by
          intro d hd
          obtain ⟨hdc, hdp⟩ := List.mem_filter.mp hd
          refine ⟨⟨hu0, ?_⟩, hsub x d hdc⟩
          rw [← specTuple_congr s s₀ C x d hasg]
          simpa using hdp
        by_cases h0 : curDomainSize
            ((specFCbad s C x).foldl (fun t d => pruneValue t x d) s) x = 0
        · rw [show specFCloop (C :: cs) s pr =
            (false, (specFCbad s C x).foldl (fun t d => pruneValue t x d) s,
              pr ++ (specFCbad s C x).map fun d => (x, d)) by
            simp [specFCloop, h1, hu, h0]] at hp
          simp only at hp
          rcases List.mem_append.mp hp with hl | hr
          · exact Or.inl hl
          · obtain ⟨d, hd, hpd⟩ := List.mem_map.mp hr
            obtain ⟨hf, hdom⟩ := hbadp d hd
            rw [← hpd]
            exact Or.inr ⟨C, List.mem_cons_self _ _, hf, hdom⟩
        · rw [show specFCloop (C :: cs) s pr =
            specFCloop cs ((specFCbad s C x).foldl (fun t d => pruneValue t x d) s)
              (pr ++ (specFCbad s C x).map fun d => (x, d)) by
            simp [specFCloop, h1, hu, h0]] at hp
          have hasg2 : sameAssign
              ((specFCbad s C x).foldl (fun t d => pruneValue t x d) s) s₀ := by
            intro w
            rw [← foldl_prune_map, getAssigned_applyPrunes]
            exact hasg w
          have hsub2 : ∀ x' e, e ∈ curDomain
              ((specFCbad s C x).foldl (fun t d => pruneValue t x d) s) x' →
              e ∈ curDomain s₀ x' := by
            intro x' e he
            rw [← foldl_prune_map] at he
            exact hsub x' e (curDomain_applyPrunes_subset _ s x' e he)
          rcases ih _ _ hasg2 hsub2 p hp with hl | ⟨D, hD, hf⟩
          · rcases List.mem_append.mp hl with hll | hlr
            · exact Or.inl hll
            · obtain ⟨d, hd, hpd⟩ := List.mem_map.mp hlr
              obtain ⟨hf, hdom⟩ := hbadp d hd
              rw [← hpd]
              exact Or.inr ⟨C, List.mem_cons_self _ _, hf, hdom⟩
          · exact Or.inr ⟨D, List.mem_cons_of_mem _ hD, hf⟩
    · rw [show specFCloop (C :: cs) s pr = specFCloop cs s pr by
        simp [specFCloop, h1]] at hp
      rcases ih s pr hasg hsub p hp with hl | ⟨D, hD, hf⟩
      · exact Or.inl hl
      · exact Or.inr ⟨D, List.mem_cons_of_mem _ hD, hf⟩

/-- C9: for the same problem and assignment state, whenever a GAC propagate
call completes at its fixed point (result `true`), every pair pruned by the
forward-checking propagate call is also in GAC's pruned list, and every
pair pruned by plain backtracking (none — its list is empty) is in
forward checking's list: GAC ⊇ FC ⊇ BT in pruning power. -/
theorem gac_fc_bt_superset (fuel : Nat) (csp : CSP) (s : VState)
    (v : Option Nat) (sG : VState) (prG : List (Nat × Nat))
    (hG : prop_GAC fuel csp s v = some (true, sG, prG)) :
    (∀ p ∈ (prop_FC csp s v).2.2, p ∈ prG) ∧
    (∀ p ∈ (prop_BT csp s v).2, p ∈ (prop_FC csp s v).2.2) := by
  unfold prop_GAC at hG
  cases he : gac_enforce fuel (initQueue csp v) (initSettled csp v) s [] with
  | none => rw [he] at hG; exact absurd hG (by simp)
  | some t =>
    obtain ⟨b, s2, q2, ng2, pr2⟩ := t
    rw [he] at hG
    simp only [Option.some.injEq, Prod.mk.injEq] at hG
    obtain ⟨hb, hs2, hpr2⟩ := hG
    rw [hb] at he
    have hbase0 : GBase s s [] := ⟨fun w => rfl, fun x d h1 h2 => absurd h1 h2⟩
    have hall := gac_enforce_key s (initQueue csp v) fuel (initQueue csp v)
      (initSettled csp v) s [] s2 q2 ng2 pr2 he hbase0
      (fun C hC x d _ => Or.inl hC)
    constructor
    · intro p hp
      rw [prop_FC_eq_loop, fcLoop_eq_spec] at hp
      rcases specFCloop_sound s (initQueue csp v) s [] (fun w => rfl)
        (fun x e hh => hh) p hp with hemp | ⟨C, hC, hf, hd⟩
      · exact absurd hemp (by simp)
      · rw [← hpr2]
        exact hall C hC p.1 p.2 hf hd
    · intro p hp
      rw [bt_snd_nil] at hp
      exact absurd hp (by simp)

/-- C9 witness: the superset theorem applied to a binary not-equal
constraint where both GAC and FC prune exactly `(1, 1)`. -/
theorem gac_fc_bt_superset_witness :
    prop_GAC 5 cspW sW (some 0) = some (true, sWafter, [(1, 1)]) ∧
    ((∀ p ∈ (prop_FC cspW sW (some 0)).2.2, p ∈ [((1 : Nat), (1 : Nat))]) ∧
     (∀ p ∈ (prop_BT cspW sW (some 0)).2, p ∈ (prop_FC cspW sW (some 0)).2.2)) :=
  ⟨by decide, gac_fc_bt_superset 5 cspW sW (some 0) sWafter [(1, 1)] (by decide)⟩
